import Mathlib

/-!
Verification of the stream-adapter layer of a zstd binding.

The codec engine is external to the repository; it is modelled as an abstract
`Op` (the `Operation` trait of `src/stream/raw.rs`): a stepping function that,
given its internal state, an input slice and an output capacity, returns a new
state, how many input bytes it consumed, the bytes it wrote, and a hint (or an
error).  Byte sources (`BufRead`) are modelled as chunk lists with
`fillBuf`/`consume`, and byte sinks (`Write`) as abstract accept functions.

The adapters are translated function-by-function:
* `zio.read`          — `Reader::read` of `src/stream/zio.rs`
* `zio.writeFromOffset`, `zio.writerWrite`, `zio.writerFlush`,
  `zio.writerFinish` — `Writer` of `src/stream/zio.rs`
* `zreader.read`      — `Reader::read` of `src/stream/zio/reader.rs`
* `bufread.read`      — `Decoder::read` of `src/stream/bufread.rs`
* `block.compress` / `block.decompress` — the one-shot block API (modelled
  from the spec; see the doc comments there).

Loops whose termination depends on the codec making progress are given an
explicit fuel parameter; running out of fuel returns `none`.
-/

instance (ε α : Type) [DecidableEq ε] [DecidableEq α] :
    DecidableEq (Except ε α) := fun a b =>
  match a, b with
  | .error e, .error f =>
    if h : e = f then isTrue (by simp [h]) else isFalse (by simp [h])
  | .error _, .ok _ => isFalse (by simp)
  | .ok _, .error _ => isFalse (by simp)
  | .ok x, .ok y =>
    if h : x = y then isTrue (by simp [h]) else isFalse (by simp [h])

/-- Result of one call into the codec engine: new engine state, number of
input bytes consumed (`InBuffer.pos`), bytes written to the output
(`OutBuffer` contents up to `pos`), and the returned hint or an error. -/
structure OpOut (σ : Type) where
  st : σ
  bytesRead : Nat
  out : List Nat
  hint : Except Unit Nat
  deriving DecidableEq

/-- The `Operation` trait of `src/stream/raw.rs`: `run`, `flush`, `finish`
against an input slice and an output capacity, plus the decoder-only
`reinit`. -/
structure Op (σ : Type) where
  run : σ → List Nat → Nat → OpOut σ
  flush : σ → Nat → OpOut σ
  finish : σ → Nat → OpOut σ
  reinit : σ → Except Unit σ

/-- Buffer contract of the codec engine (§6 of the spec): the cursors it
reports never exceed the buffers it was given. -/
structure Op.WF (op : Op σ) : Prop where
  run_read_le : ∀ s src cap, (op.run s src cap).bytesRead ≤ src.length
  run_out_le : ∀ s src cap, (op.run s src cap).out.length ≤ cap
  flush_out_le : ∀ s cap, (op.flush s cap).out.length ≤ cap
  finish_out_le : ∀ s cap, (op.finish s cap).out.length ≤ cap

/-- Progress contract of the codec engine: given nonempty input and nonzero
output capacity, a `run` step consumes input or produces output. -/
def Op.Progress (op : Op σ) : Prop :=
  ∀ s src cap, src ≠ [] → cap ≠ 0 →
    (op.run s src cap).bytesRead ≠ 0 ∨ (op.run s src cap).out ≠ []

/-- A push sink (`std::io::Write`): accepts a prefix of the offered bytes and
reports how many it accepted. -/
structure Sink (ω : Type) where
  write : ω → List Nat → ω × Nat

/-- The `Write` contract: a sink never claims to accept more bytes than it
was offered. -/
def Sink.WF (sink : Sink ω) : Prop :=
  ∀ w bs, (sink.write w bs).2 ≤ bs.length

/-- A sink together with an observation function `recv` returning the bytes
it has accepted so far, in order. -/
def Sink.Models (sink : Sink ω) (recv : ω → List Nat) : Prop :=
  ∀ w bs, (sink.write w bs).2 ≤ bs.length ∧
    recv (sink.write w bs).1 = recv w ++ bs.take (sink.write w bs).2

/-- Errors surfaced by the reader adapters. -/
inductive ReadErr
  | unexpectedEof
  | codec
  deriving DecidableEq

/-- Errors surfaced by the writer adapter. -/
inductive WErr
  | writeZero
  | codec
  deriving DecidableEq

namespace zio

/-- `BufRead::fill_buf`: the currently buffered bytes; empty means EOF. -/
def fillBuf (chunks : List (List Nat)) : List Nat :=
  (chunks.head?).getD []

/-- `BufRead::consume n`: drop `n` bytes from the current buffer; an emptied
buffer is refilled from the rest of the stream on the next `fill_buf`. -/
def consume (chunks : List (List Nat)) (n : Nat) : List (List Nat) :=
  match chunks with
  | [] => []
  | c :: rest =>
    if (c.drop n).isEmpty then rest else c.drop n :: rest

/-- State of the `Reader` of `src/stream/zio.rs`. -/
structure Reader (σ : Type) where
  chunks : List (List Nat)
  opSt : σ
  needsData : Bool
  deriving DecidableEq

/-- `Reader::new` of `src/stream/zio.rs`: `needs_data` starts `true`. -/
def Reader.new (chunks : List (List Nat)) (s : σ) : Reader σ :=
  { chunks := chunks, opSt := s, needsData := true }

/-- One iteration of the `Reader::read` loop of `src/stream/zio.rs`:
`fill_buf`, then either the EOF handling (`needs_data` check and `finish`)
or a `run` step followed by the `needs_data` update, `consume`, and the exit
test `bytes_written != 0 || eof || dst.is_empty()`.  `.inl` is a return from
`read`, `.inr` continues the loop with the updated state. -/
def readStep (op : Op σ) (st : Reader σ) (cap : Nat) :
    Sum (Except ReadErr (List Nat × Reader σ)) (Reader σ) :=
  let src := fillBuf st.chunks
  if src.isEmpty then
    if st.needsData then
      .inl (.error .unexpectedEof)
    else
      let r := op.finish st.opSt cap
      match r.hint with
      | .error _ => .inl (.error .codec)
      | .ok _ => .inl (.ok (r.out, { st with opSt := r.st }))
  else
    let r := op.run st.opSt src cap
    match r.hint with
    | .error _ => .inl (.error .codec)
    | .ok h =>
      let st' : Reader σ :=
        { chunks := consume st.chunks r.bytesRead
          opSt := r.st
          needsData := h != 0 }
      if r.out.length != 0 || cap == 0 then
        .inl (.ok (r.out, st'))
      else
        .inr st'

/-- `Reader::read` of `src/stream/zio.rs` (one call, fuel-bounded loop).
Returns the bytes written into `dst` (capacity `cap`) and the new adapter
state, or an adapter error; `none` when fuel runs out. -/
def read (op : Op σ) (fuel : Nat) (st : Reader σ) (cap : Nat) :
    Option (Except ReadErr (List Nat × Reader σ)) :=
  match fuel with
  | 0 => none
  | fuel + 1 =>
    match readStep op st cap with
    | .inl r => some r
    | .inr st' => read op fuel st' cap

/-- Outcome of `Writer::write_from_offset`: `ok = false` is the `WriteZero`
error; `sink` and `offset` are the sink state and staging-buffer offset at
the point of return. -/
structure DrainOut (ω : Type) where
  ok : Bool
  sink : ω
  offset : Nat
  deriving DecidableEq

/-- State of the `Writer` of `src/stream/zio.rs`.  `buffer` is the logical
contents of the staging buffer (the Rust `Vec` up to its length), `cap` its
fixed allocated capacity. -/
structure Writer (σ ω : Type) where
  sink : ω
  opSt : σ
  offset : Nat
  buffer : List Nat
  cap : Nat
  finished : Bool
  deriving DecidableEq

/-- `Writer::write_from_offset` of `src/stream/zio.rs`: repeatedly offer
`buffer[offset..]` to the sink, advancing `offset` by the accepted count; a
zero-byte accept on a non-empty remainder is the `WriteZero` error. -/
def writeFromOffset (sink : Sink ω) (w : ω) (buffer : List Nat)
    (offset : Nat) : DrainOut ω :=
  if _h : offset < buffer.length then
    if _h2 : (sink.write w (buffer.drop offset)).2 = 0 then
      { ok := false, sink := (sink.write w (buffer.drop offset)).1
        offset := offset }
    else
      writeFromOffset sink (sink.write w (buffer.drop offset)).1 buffer
        (offset + (sink.write w (buffer.drop offset)).2)
  else
    { ok := true, sink := w, offset := offset }
termination_by buffer.length - offset
decreasing_by omega

/-- One iteration of the `Writer::write` loop of `src/stream/zio.rs`: drain
the staging buffer, run the operation on the whole of `buf` into the
capacity-sized staging buffer, and return once some input was consumed or
`buf` is empty.  `.inl` is a return from `write`, `.inr` continues the
loop. -/
def writerWriteStep (op : Op σ) (sink : Sink ω) (st : Writer σ ω)
    (buf : List Nat) :
    Sum (Except WErr Nat × Writer σ ω) (Writer σ ω) :=
  let d := writeFromOffset sink st.sink st.buffer st.offset
  if d.ok = false then
    .inl (.error .writeZero, { st with sink := d.sink, offset := d.offset })
  else
    let r := op.run st.opSt buf st.cap
    let st' : Writer σ ω :=
      { st with sink := d.sink, opSt := r.st, offset := 0, buffer := r.out }
    match r.hint with
    | .error _ => .inl (.error .codec, st')
    | .ok _ =>
      if r.bytesRead != 0 || buf.isEmpty then
        .inl (.ok r.bytesRead, st')
      else
        .inr st'

/-- `Writer::write` of `src/stream/zio.rs` (one call, fuel-bounded loop). -/
def writerWrite (op : Op σ) (sink : Sink ω) (fuel : Nat) (st : Writer σ ω)
    (buf : List Nat) : Option (Except WErr Nat × Writer σ ω) :=
  match fuel with
  | 0 => none
  | fuel + 1 =>
    match writerWriteStep op sink st buf with
    | .inl r => some r
    | .inr st' => writerWrite op sink fuel st' buf

/-- `Writer::flush` (the `Write` impl) of `src/stream/zio.rs`: drain the
staging buffer, call the operation's `flush` once (only the error component
of its result is consulted; the remaining-bytes hint is discarded), then
drain the newly staged output. -/
def writerFlush (op : Op σ) (sink : Sink ω) (st : Writer σ ω) :
    Except WErr Unit × Writer σ ω :=
  let d := writeFromOffset sink st.sink st.buffer st.offset
  if d.ok = false then
    (.error .writeZero, { st with sink := d.sink, offset := d.offset })
  else
    let r := op.flush st.opSt st.cap
    let st' : Writer σ ω :=
      { st with sink := d.sink, opSt := r.st, offset := 0, buffer := r.out }
    match r.hint with
    | .error _ => (.error .codec, st')
    | .ok _ =>
      let d2 := writeFromOffset sink st'.sink st'.buffer st'.offset
      if d2.ok = false then
        (.error .writeZero, { st' with sink := d2.sink, offset := d2.offset })
      else
        (.ok (), { st' with sink := d2.sink, offset := d2.offset })

/-- One iteration of the `Writer::finish` loop of `src/stream/zio.rs`:
drain, stop if already finished, otherwise call the operation's `finish`
into the staging buffer, record `finished` when it reports 0 remaining,
drain again.  `.inl` is a return from `finish`, `.inr` continues the
loop. -/
def writerFinishStep (op : Op σ) (sink : Sink ω) (st : Writer σ ω) :
    Sum (Except WErr Unit × Writer σ ω) (Writer σ ω) :=
  let d := writeFromOffset sink st.sink st.buffer st.offset
  if d.ok = false then
    .inl (.error .writeZero, { st with sink := d.sink, offset := d.offset })
  else
    let st₀ : Writer σ ω := { st with sink := d.sink, offset := d.offset }
    if st₀.finished then
      .inl (.ok (), st₀)
    else
      let r := op.finish st₀.opSt st₀.cap
      let st₁ : Writer σ ω :=
        { st₀ with opSt := r.st, offset := 0, buffer := r.out }
      match r.hint with
      | .error _ => .inl (.error .codec, st₁)
      | .ok h =>
        let st₂ : Writer σ ω := { st₁ with finished := h == 0 }
        let d2 := writeFromOffset sink st₂.sink st₂.buffer st₂.offset
        if d2.ok = false then
          .inl (.error .writeZero,
            { st₂ with sink := d2.sink, offset := d2.offset })
        else
          .inr { st₂ with sink := d2.sink, offset := d2.offset }

/-- `Writer::finish` of `src/stream/zio.rs` (fuel-bounded loop). -/
def writerFinish (op : Op σ) (sink : Sink ω) (fuel : Nat) (st : Writer σ ω) :
    Option (Except WErr Unit × Writer σ ω) :=
  match fuel with
  | 0 => none
  | fuel + 1 =>
    match writerFinishStep op sink st with
    | .inl r => some r
    | .inr st' => writerFinish op sink fuel st'

/-- Staging-buffer invariant of the `Writer`: the drain offset never exceeds
the buffer's logical length, which never exceeds its allocated capacity. -/
def WInv (st : Writer σ ω) : Prop :=
  st.offset ≤ st.buffer.length ∧ st.buffer.length ≤ st.cap

end zio

namespace zreader

/-- State of the `Reader` of `src/stream/zio/reader.rs`. -/
structure Reader (σ : Type) where
  chunks : List (List Nat)
  opSt : σ
  finished : Bool
  singleFrame : Bool
  finishedFrame : Bool
  deriving DecidableEq

/-- One iteration of the retry loop inside `Reader::read` of
`src/stream/zio/reader.rs`: on EOF call `finish` and always return (success,
truncated-frame error, or trailing bytes); otherwise run a step, record
frame completion, consume the read bytes, and return once something was
written.  `.inl` is a return from `read`, `.inr` continues the loop. -/
def step (op : Op σ) (st : Reader σ) (cap : Nat) :
    Sum (Except ReadErr (List Nat × Reader σ)) (Reader σ) :=
  let input := zio.fillBuf st.chunks
  if input.isEmpty then
    let r := op.finish st.opSt cap
    match r.hint with
    | .error _ => .inl (.error .codec)
    | .ok h =>
      if h == 0 then
        .inl (.ok (r.out, { st with opSt := r.st, finished := true }))
      else if r.out.length == 0 then
        .inl (.error .unexpectedEof)
      else
        .inl (.ok (r.out, { st with opSt := r.st }))
  else
    let r := op.run st.opSt input cap
    match r.hint with
    | .error _ => .inl (.error .codec)
    | .ok h =>
      let st' : Reader σ :=
        { st with
          opSt := r.st
          chunks := zio.consume st.chunks r.bytesRead
          finishedFrame := if h == 0 then true else st.finishedFrame
          finished :=
            if h == 0 && st.singleFrame then true else st.finished }
      if r.out.length > 0 then
        .inl (.ok (r.out, st'))
      else
        .inr st'

/-- The retry loop inside `Reader::read` of `src/stream/zio/reader.rs`
(fuel-bounded). -/
def loop (op : Op σ) (fuel : Nat) (st : Reader σ) (cap : Nat) :
    Option (Except ReadErr (List Nat × Reader σ)) :=
  match fuel with
  | 0 => none
  | fuel + 1 =>
    match step op st cap with
    | .inl r => some r
    | .inr st' => loop op fuel st' cap

/-- `Reader::read` of `src/stream/zio/reader.rs`: return 0 immediately when
finished, reinitialize the operation at a frame boundary, then enter the
retry loop. -/
def read (op : Op σ) (fuel : Nat) (st : Reader σ) (cap : Nat) :
    Option (Except ReadErr (List Nat × Reader σ)) :=
  if st.finished then
    some (.ok ([], st))
  else
    match (if st.finishedFrame then op.reinit st.opSt else .ok st.opSt) with
    | .error _ => some (.error .codec)
    | .ok s0 => loop op fuel { st with opSt := s0, finishedFrame := false } cap

end zreader

namespace bufread

/-- State of the `Decoder` of `src/stream/bufread.rs`: a `zio.rs` reader plus
the `single_frame` and `fused` flags. -/
structure Decoder (σ : Type) where
  rd : zio.Reader σ
  singleFrame : Bool
  fused : Bool
  deriving DecidableEq

/-- `Decoder::read` of `src/stream/bufread.rs`: return 0 when fused,
otherwise delegate to the inner reader and fuse after the first completed
frame in single-frame mode. -/
def read (op : Op σ) (fuel : Nat) (st : Decoder σ) (cap : Nat) :
    Option (Except ReadErr (List Nat × Decoder σ)) :=
  if st.fused then
    some (.ok ([], st))
  else
    match zio.read op fuel st.rd cap with
    | none => none
    | some (.error e) => some (.error e)
    | some (.ok (out, rd')) =>
      some (.ok (out,
        { st with rd := rd', fused := st.singleFrame && !rd'.needsData }))

end bufread

namespace block

/-- Errors of the one-shot block API. -/
inductive BlockErr
  | bufferTooSmall
  | codec
  deriving DecidableEq

/-- Modelled from the spec: the bodies of `block::compress` (the
`Compressor` of `src/block/compressor.rs` and the external codec engine) are
not under `src/`.  Per §6/§8 of the spec, `compress(data, level)` is a
single-call whole-input compression for every level in the supported range
(0 uses the default), optionally primed with a dictionary that must be
shared with the decoder; the model emits a self-describing frame recording
the dictionary so that the decoder can check it. -/
def compress (data : List Nat) (level : Int) (dict : List Nat) :
    Except BlockErr (List Nat) :=
  if 0 ≤ level ∧ level ≤ 21 then
    .ok (dict.length :: (dict ++ data))
  else
    .error .codec

/-- Modelled from the spec: the bodies of `block::decompress` (the
`Decompressor` of `src/block/decompressor.rs` and the external codec engine)
are not under `src/`.  Per §6/§7 of the spec, `decompress(data, capacity)`
is a single-call whole-output decompression; a decompressed result larger
than `capacity` is the distinct `BufferTooSmall` error, a dictionary other
than the one used to compress fails with a codec error, and structurally
invalid input fails with a codec error. -/
def decompress (data : List Nat) (capacity : Nat) (dict : List Nat) :
    Except BlockErr (List Nat) :=
  match data with
  | [] => .error .codec
  | n :: rest =>
    if n = dict.length ∧ rest.take n = dict then
      if (rest.drop n).length ≤ capacity then
        .ok (rest.drop n)
      else
        .error .bufferTooSmall
    else
      .error .codec

end block

/-! Concrete sinks, operations and adapter states used to witness and to
refute claims. -/

/-- A sink that accepts everything offered; its state is the list of bytes
received so far. -/
def listSink : Sink (List Nat) :=
  ⟨fun w bs => (w ++ bs, bs.length)⟩

/-- A stalled sink: accepts zero bytes on every call. -/
def zeroSink : Sink (List Nat) :=
  ⟨fun w _ => (w, 0)⟩

/-- A rate-limited sink: accepts at most one byte per call. -/
def oneByteSink : Sink (List Nat) :=
  ⟨fun w bs => (w ++ bs.take 1, min 1 bs.length)⟩

/-- An operation whose `finish` writes nothing and reports 1 byte still
pending, forever. -/
def hintOneOp : Op Unit where
  run := fun s _ _ => ⟨s, 0, [], .ok 1⟩
  flush := fun s _ => ⟨s, 0, [], .ok 0⟩
  finish := fun s _ => ⟨s, 0, [], .ok 1⟩
  reinit := fun s => .ok s

/-- An operation with a counted internal buffer (the state): each `flush`
emits as many bytes as fit in the output capacity and reports the rest. -/
def countFlushOp : Op Nat where
  run := fun s src _ => ⟨s, src.length, [], .ok 1⟩
  flush := fun s cap => ⟨s - min s cap, 0, List.replicate (min s cap) 7, .ok (s - min s cap)⟩
  finish := fun s _ => ⟨s, 0, [], .ok 0⟩
  reinit := fun s => .ok s

/-- An operation whose `finish` completes immediately, writing nothing. -/
def plainEndOp : Op Unit where
  run := fun s src _ => ⟨s, src.length, [], .ok 1⟩
  flush := fun s _ => ⟨s, 0, [], .ok 0⟩
  finish := fun s _ => ⟨s, 0, [], .ok 0⟩
  reinit := fun s => .ok s

/-- An operation whose `run` consumes one input byte and emits one output
byte per step. -/
def oneByteRunOp : Op Unit where
  run := fun s _ _ => ⟨s, 1, [9], .ok 5⟩
  flush := fun s _ => ⟨s, 0, [], .ok 0⟩
  finish := fun s _ => ⟨s, 0, [], .ok 0⟩
  reinit := fun s => .ok s

/-- An operation whose `flush` emits two bytes and completes. -/
def emitFlushOp : Op Unit where
  run := fun s _ _ => ⟨s, 0, [], .ok 1⟩
  flush := fun s _ => ⟨s, 0, [3, 4], .ok 0⟩
  finish := fun s _ => ⟨s, 0, [], .ok 0⟩
  reinit := fun s => .ok s

/-- An operation whose `run` consumes its whole input and emits nothing. -/
def consumeAllOp : Op Unit where
  run := fun s src _ => ⟨s, src.length, [], .ok 1⟩
  flush := fun s _ => ⟨s, 0, [], .ok 0⟩
  finish := fun s _ => ⟨s, 0, [], .ok 0⟩
  reinit := fun s => .ok s

/-- A `zio.rs` reader at EOF whose last `run` step reported hint 0
(`needs_data = false`). -/
def zioEofReader : zio.Reader Unit :=
  { chunks := [], opSt := (), needsData := false }

/-- A `zio/reader.rs` reader at EOF in its initial flag state. -/
def zrEofReader : zreader.Reader Unit :=
  { chunks := [], opSt := (), finished := false, singleFrame := false
    finishedFrame := false }

/-- A writer whose operation still holds 5 internal bytes, with a staging
buffer of capacity 2. -/
def smallCapWriter : zio.Writer Nat (List Nat) :=
  { sink := [], opSt := 5, offset := 0, buffer := [], cap := 2
    finished := false }

/-- A fresh writer that has not produced anything yet. -/
def freshWriter : zio.Writer Unit (List Nat) :=
  { sink := [], opSt := (), offset := 0, buffer := [], cap := 4
    finished := false }

/-- A writer already in the terminal finished state with a drained staging
buffer. -/
def finishedWriter : zio.Writer Unit (List Nat) :=
  { sink := [], opSt := (), offset := 0, buffer := [], cap := 4
    finished := true }

/-- A `zio.rs` reader with three buffered input bytes. -/
def threeByteReader : zio.Reader Unit :=
  { chunks := [[1, 2, 3]], opSt := (), needsData := true }

/-- A finished `zio/reader.rs` reader. -/
def zrFinishedReader : zreader.Reader Unit :=
  { chunks := [[1]], opSt := (), finished := true, singleFrame := false
    finishedFrame := false }

/-- A fused `bufread.rs` decoder. -/
def fusedDecoder : bufread.Decoder Unit :=
  { rd := { chunks := [[1]], opSt := (), needsData := false }
    singleFrame := true, fused := true }

/-! Helper lemmas about the drain loop, the buffered source, and fuel. -/

theorem zio.writeFromOffset_of_ge (sink : Sink ω) (w : ω) (buffer : List Nat)
    (offset : Nat) (h : buffer.length ≤ offset) :
    zio.writeFromOffset sink w buffer offset = ⟨true, w, offset⟩ := by
  rw [zio.writeFromOffset, dif_neg (by omega)]

theorem zio.writeFromOffset_ok_ge (sink : Sink ω) (w : ω) (buffer : List Nat)
    (offset : Nat)
    (h : (zio.writeFromOffset sink w buffer offset).ok = true) :
    buffer.length ≤ (zio.writeFromOffset sink w buffer offset).offset := by
  induction w, buffer, offset using zio.writeFromOffset.induct sink with
  | case1 w buffer offset hlt hz =>
    rw [zio.writeFromOffset, dif_pos hlt, dif_pos hz] at h
    simp at h
  | case2 w buffer offset hlt hz ih =>
    rw [zio.writeFromOffset, dif_pos hlt, dif_neg hz] at h ⊢
    exact ih h
  | case3 w buffer offset hge =>
    rw [zio.writeFromOffset, dif_neg hge]
    dsimp
    omega

theorem zio.writeFromOffset_offset_le (sink : Sink ω) (hwf : Sink.WF sink)
    (w : ω) (buffer : List Nat) (offset : Nat) (h : offset ≤ buffer.length) :
    (zio.writeFromOffset sink w buffer offset).offset ≤ buffer.length := by
  induction w, buffer, offset using zio.writeFromOffset.induct sink with
  | case1 w buffer offset hlt hz =>
    rw [zio.writeFromOffset, dif_pos hlt, dif_pos hz]
    dsimp
    omega
  | case2 w buffer offset hlt hz ih =>
    rw [zio.writeFromOffset, dif_pos hlt, dif_neg hz]
    have hb := hwf w (buffer.drop offset)
    rw [List.length_drop] at hb
    exact ih (by omega)
  | case3 w buffer offset hge =>
    rw [zio.writeFromOffset, dif_neg hge]
    dsimp
    omega

theorem zio.writeFromOffset_recv (sink : Sink ω) (recv : ω → List Nat)
    (hs : Sink.Models sink recv) (w : ω) (buffer : List Nat) (offset : Nat)
    (h : (zio.writeFromOffset sink w buffer offset).ok = true) :
    recv (zio.writeFromOffset sink w buffer offset).sink
      = recv w ++ buffer.drop offset := by
  induction w, buffer, offset using zio.writeFromOffset.induct sink with
  | case1 w buffer offset hlt hz =>
    rw [zio.writeFromOffset, dif_pos hlt, dif_pos hz] at h
    simp at h
  | case2 w buffer offset hlt hz ih =>
    rw [zio.writeFromOffset, dif_pos hlt, dif_neg hz] at h ⊢
    rw [ih h, (hs w (buffer.drop offset)).2, List.append_assoc]
    congr 1
    rw [show buffer.drop (offset + (sink.write w (buffer.drop offset)).2)
          = ((buffer.drop offset).drop ((sink.write w (buffer.drop offset)).2))
        from (List.drop_drop _ _ _).symm,
      List.take_append_drop]
  | case3 w buffer offset hge =>
    rw [zio.writeFromOffset, dif_neg hge]
    dsimp
    rw [List.drop_eq_nil_of_le (by omega)]
    simp

theorem zio.consume_flatten (chunks : List (List Nat)) (n : Nat)
    (hne : zio.fillBuf chunks ≠ []) (hle : n ≤ (zio.fillBuf chunks).length) :
    (zio.consume chunks n).flatten = chunks.flatten.drop n := by
  cases chunks with
  | nil => simp [zio.fillBuf] at hne
  | cons c rest =>
    simp only [zio.fillBuf, List.head?, Option.getD] at hne hle
    simp only [zio.consume, List.flatten_cons]
    by_cases hd : (c.drop n).isEmpty
    · rw [if_pos hd]
      rw [List.isEmpty_iff] at hd
      have hlen := List.length_drop n c
      rw [hd] at hlen
      simp at hlen
      have hn : n = c.length := by omega
      subst hn
      rw [List.drop_left]
    · rw [if_neg hd]
      rw [List.flatten_cons]
      rw [List.drop_append_of_le_length hle]

theorem zio.fillBuf_consume (chunks : List (List Nat)) (n : Nat)
    (hlt : n < (zio.fillBuf chunks).length) :
    zio.fillBuf (zio.consume chunks n) = (zio.fillBuf chunks).drop n := by
  cases chunks with
  | nil => simp [zio.fillBuf] at hlt
  | cons c rest =>
    simp only [zio.fillBuf, List.head?, Option.getD] at hlt ⊢
    simp only [zio.consume]
    have hd : ¬(c.drop n).isEmpty := by
      rw [List.isEmpty_iff]
      intro h
      have hlen := List.length_drop n c
      rw [h] at hlen
      simp at hlen
      omega
    rw [if_neg hd]

theorem zio.read_mono (op : Op σ) :
    ∀ fuel fuel' (st : zio.Reader σ) (cap : Nat) x, fuel ≤ fuel' →
      zio.read op fuel st cap = some x →
      zio.read op fuel' st cap = some x := by
  intro fuel
  induction fuel with
  | zero =>
    intro fuel' st cap x _ h
    simp [zio.read] at h
  | succ n ih =>
    intro fuel' st cap x hle h
    obtain ⟨m, rfl⟩ : ∃ m, fuel' = m + 1 := ⟨fuel' - 1, by omega⟩
    rw [zio.read] at h
    rw [zio.read]
    rcases hs : zio.readStep op st cap with r | st'
    · rw [hs] at h
      exact h
    · rw [hs] at h
      exact ih m st' cap x (by omega) h

/-! Claims. -/

/-- C1: for every byte sequence `x` (including the empty sequence), every
compression level in the supported range, and every dictionary shared by
both sides (the empty dictionary meaning "no dictionary"),
`decompress (compress x level dict) x.length dict` returns exactly `x`.
The block codec is modelled from the spec (see `block.compress` and
`block.decompress`). -/
theorem block_compress_decompress_roundtrip (x dict : List Nat) (level : Int)
    (hlo : 0 ≤ level) (hhi : level ≤ 21) :
    (block.compress x level dict).bind
      (fun c => block.decompress c x.length dict) = .ok x := by
  have hc : block.compress x level dict = .ok (dict.length :: (dict ++ x)) := by
    simp [block.compress, hlo, hhi]
  rw [hc]
  show block.decompress (dict.length :: (dict ++ x)) x.length dict = .ok x
  simp [block.decompress, List.take_left, List.drop_left]

/-- Witness for C1: round trip of a concrete sequence at level 3 with a
one-byte dictionary. -/
theorem block_compress_decompress_roundtrip_witness :
    (block.compress [10, 20, 30] 3 [7]).bind
      (fun c => block.decompress c 3 [7]) = .ok [10, 20, 30] :=
  block_compress_decompress_roundtrip [10, 20, 30] [7] 3 (by decide)
    (by decide)

/-- C9: a freshly constructed `zio.rs` Reader (`needs_data` initialized to
`true`) whose underlying source is already at EOF returns the UnexpectedEof
"incomplete frame" error on the first read call, for any operation and any
destination capacity — an empty input is a truncated stream, not an empty
decoded stream. -/
theorem zio_fresh_reader_eof_error (σ : Type) (op : Op σ) (s : σ)
    (cap fuel : Nat) :
    zio.read op (fuel + 1) (zio.Reader.new [] s) cap
      = some (.error .unexpectedEof) := by
  rw [zio.read]
  have hs : zio.readStep op (zio.Reader.new [] s) cap
      = .inl (.error .unexpectedEof) := by
    simp [zio.readStep, zio.Reader.new, zio.fillBuf]
  rw [hs]

/-- C2 counterexample: a `zio.rs` Reader state at true EOF whose operation's
`finish` writes zero bytes and reports a nonzero remaining hint: `read`
returns `Ok(0)` (no bytes), not an UnexpectedEof error, contradicting the
claim for the `zio.rs` Reader. -/
theorem zio_eof_finish_nonzero_returns_ok0 :
    zio.read hintOneOp 1 zioEofReader 8 = some (.ok ([], zioEofReader)) ∧
    zio.read hintOneOp 1 zioEofReader 8 ≠ some (.error .unexpectedEof) := by
  constructor
  · rfl
  · decide

/-- C2 (amended): in the `zio/reader.rs` Reader the claim holds: at true
EOF, when the operation's `finish` reports a nonzero remaining hint and
writes zero bytes, `read` returns the UnexpectedEof "incomplete frame"
error.  (The `zio.rs` Reader instead guards with `needs_data`: EOF while
`needs_data` is an immediate UnexpectedEof without calling `finish`, but
when `needs_data` is false a nonzero `finish` hint with zero bytes written
yields `Ok(0)` — see the counterexample.) -/
theorem zreader_eof_finish_nonzero_error (σ : Type) (op : Op σ)
    (st : zreader.Reader σ) (cap fuel h : Nat)
    (hfin : st.finished = false) (hff : st.finishedFrame = false)
    (heof : zio.fillBuf st.chunks = [])
    (hhint : (op.finish st.opSt cap).hint = .ok h) (hh : h ≠ 0)
    (hout : (op.finish st.opSt cap).out = []) :
    zreader.read op (fuel + 1) st cap = some (.error .unexpectedEof) := by
  obtain ⟨chunks, s, fin, sf, ff⟩ := st
  simp only at hfin hff heof hhint hout
  subst hfin
  subst hff
  have hstep : zreader.step op ⟨chunks, s, false, sf, false⟩ cap
      = .inl (.error .unexpectedEof) := by
    simp only [zreader.step, heof, List.isEmpty_nil, if_true]
    rw [hhint]
    simp [hout, hh]
  show zreader.loop op (fuel + 1) ⟨chunks, s, false, sf, false⟩ cap
      = some (.error .unexpectedEof)
  rw [zreader.loop]
  rw [hstep]

/-- Witness for the amended C2: a concrete EOF reader whose operation's
`finish` always reports one byte remaining and writes nothing. -/
theorem zreader_eof_finish_nonzero_error_witness :
    zreader.read hintOneOp 1 zrEofReader 8 = some (.error .unexpectedEof) :=
  zreader_eof_finish_nonzero_error Unit hintOneOp zrEofReader 8 0 1
    rfl rfl rfl rfl (by decide) rfl

theorem listSink_models : Sink.Models listSink id := by
  intro w bs
  constructor
  · simp [listSink]
  · simp [listSink]

theorem zeroSink_models : Sink.Models zeroSink id := by
  intro w bs
  constructor
  · simp [zeroSink]
  · simp [zeroSink]

theorem oneByteSink_models : Sink.Models oneByteSink id := by
  intro w bs
  constructor
  · simp [oneByteSink]
  · cases bs with
    | nil => simp [oneByteSink]
    | cons b t => simp [oneByteSink]

theorem zio.writerFinishStep_ok (op : Op σ) (sink : Sink ω)
    (st st₁ : zio.Writer σ ω) (u : Unit)
    (h : zio.writerFinishStep op sink st = .inl (.ok u, st₁)) :
    st₁.finished = true ∧ st₁.buffer.length ≤ st₁.offset := by
  simp only [zio.writerFinishStep] at h
  by_cases hd : (zio.writeFromOffset sink st.sink st.buffer st.offset).ok
      = false
  · rw [if_pos hd] at h
    simp at h
  · rw [if_neg hd] at h
    by_cases hf : st.finished = true
    · rw [if_pos hf] at h
      simp only [Sum.inl.injEq, Prod.mk.injEq] at h
      obtain ⟨-, h2⟩ := h
      subst h2
      refine ⟨hf, ?_⟩
      exact zio.writeFromOffset_ok_ge sink st.sink st.buffer st.offset
        (by revert hd; cases (zio.writeFromOffset sink st.sink st.buffer
          st.offset).ok <;> simp)
    · rw [if_neg hf] at h
      rcases hhint : (op.finish st.opSt st.cap).hint with e | hv
      · rw [hhint] at h
        simp at h
      · rw [hhint] at h
        simp only at h
        by_cases hd2 : (zio.writeFromOffset sink
            (zio.writeFromOffset sink st.sink st.buffer st.offset).sink
            (op.finish st.opSt st.cap).out 0).ok = false
        · rw [if_pos hd2] at h
          simp at h
        · rw [if_neg hd2] at h
          simp at h

theorem zio.writerFinish_ok_post (op : Op σ) (sink : Sink ω) :
    ∀ (fuel : Nat) (st st₁ : zio.Writer σ ω),
      zio.writerFinish op sink fuel st = some (.ok (), st₁) →
      st₁.finished = true ∧ st₁.buffer.length ≤ st₁.offset := by
  intro fuel
  induction fuel with
  | zero =>
    intro st st₁ h
    simp [zio.writerFinish] at h
  | succ n ih =>
    intro st st₁ h
    rw [zio.writerFinish] at h
    rcases hs : zio.writerFinishStep op sink st with r | st'
    · rw [hs] at h
      simp only [Option.some.injEq] at h
      subst h
      exact zio.writerFinishStep_ok op sink st st₁ () hs
    · rw [hs] at h
      exact ih st' st₁ h

/-- C4: a Writer that has completed a successful `finish()` (terminal
finished state, staging buffer fully drained) can be finished again: the
second `finish()` succeeds immediately and returns the state unchanged — in
particular no further bytes reach the sink and no error occurs. -/
theorem zio_writer_finish_idempotent (σ ω : Type) (op : Op σ)
    (sink : Sink ω) (fuel fuel' : Nat) (st st₁ : zio.Writer σ ω)
    (h : zio.writerFinish op sink fuel st = some (.ok (), st₁)) :
    zio.writerFinish op sink (fuel' + 1) st₁ = some (.ok (), st₁) := by
  have hpost := zio.writerFinish_ok_post op sink fuel st st₁ h
  have hstep : zio.writerFinishStep op sink st₁ = .inl (.ok (), st₁) := by
    simp only [zio.writerFinishStep]
    rw [zio.writeFromOffset_of_ge sink st₁.sink st₁.buffer st₁.offset
      hpost.2]
    simp only
    rw [if_neg (by simp)]
    rw [if_pos hpost.1]
  rw [zio.writerFinish]
  rw [hstep]

/-- Witness for C4: finishing a fresh writer over an always-accepting sink
succeeds within two loop iterations; finishing again returns the resulting
state unchanged. -/
theorem zio_writer_finish_idempotent_witness :
    zio.writerFinish plainEndOp listSink 1
        (⟨[], (), 0, [], 4, true⟩ : zio.Writer Unit (List Nat))
      = some (.ok (), (⟨[], (), 0, [], 4, true⟩ : zio.Writer Unit (List Nat)))
    := by
  refine zio_writer_finish_idempotent Unit (List Nat) plainEndOp listSink 2 0
    freshWriter _ ?_
  simp [zio.writerFinish, zio.writerFinishStep, zio.writeFromOffset,
    plainEndOp, listSink, freshWriter]

/-- C5: with a non-empty pending staging buffer, a zero-byte accept from the
sink makes the drain fail with the `WriteZero` error; and on a successful
drain the sink receives exactly the staged bytes from the tracked offset
onwards — each retry resumes at the correct position, so nothing is re-sent
from the start and nothing is lost. -/
theorem zio_writer_drain_props (ω : Type) (sink : Sink ω)
    (recv : ω → List Nat) (hs : Sink.Models sink recv) (w : ω)
    (buffer : List Nat) (offset : Nat) :
    (offset < buffer.length →
      (sink.write w (buffer.drop offset)).2 = 0 →
      zio.writeFromOffset sink w buffer offset
        = ⟨false, (sink.write w (buffer.drop offset)).1, offset⟩) ∧
    ((zio.writeFromOffset sink w buffer offset).ok = true →
      recv (zio.writeFromOffset sink w buffer offset).sink
        = recv w ++ buffer.drop offset) := by
  constructor
  · intro hlt hz
    rw [zio.writeFromOffset, dif_pos hlt, dif_pos hz]
  · intro hok
    exact zio.writeFromOffset_recv sink recv hs w buffer offset hok

/-- Witness for C5: a stalled sink on the pending buffer `[5, 6]` produces
the `WriteZero` outcome at the tracked offset. -/
theorem zio_writer_drain_props_witness :
    zio.writeFromOffset zeroSink ([] : List Nat) [5, 6] 0
      = ⟨false, [], 0⟩ :=
  (zio_writer_drain_props (List Nat) zeroSink id zeroSink_models [] [5, 6]
    0).1 (by decide) (by decide)

/-- C6: when a `zio.rs` read step consumes `bytesRead` bytes of the peeked
source buffer with `bytesRead` less than the full buffer (and produces
output, so the call returns), exactly `bytesRead` bytes are consumed from
the underlying source: the flattened remaining source is the old one with
exactly `bytesRead` bytes dropped, and the unconsumed remainder of the
peeked buffer is what the next `fill_buf` returns. -/
theorem zio_reader_consumes_exactly (σ : Type) (op : Op σ)
    (st : zio.Reader σ) (cap fuel hv : Nat) (r : OpOut σ)
    (hr : r = op.run st.opSt (zio.fillBuf st.chunks) cap)
    (hne : zio.fillBuf st.chunks ≠ [])
    (hhint : r.hint = .ok hv)
    (hlt : r.bytesRead < (zio.fillBuf st.chunks).length)
    (hout : r.out ≠ []) :
    zio.read op (fuel + 1) st cap
      = some (.ok (r.out,
          ⟨zio.consume st.chunks r.bytesRead, r.st, hv != 0⟩)) ∧
    zio.fillBuf (zio.consume st.chunks r.bytesRead)
      = (zio.fillBuf st.chunks).drop r.bytesRead ∧
    (zio.consume st.chunks r.bytesRead).flatten
      = st.chunks.flatten.drop r.bytesRead := by
  subst hr
  refine ⟨?_, ?_, ?_⟩
  · have hstep : zio.readStep op st cap
        = .inl (.ok ((op.run st.opSt (zio.fillBuf st.chunks) cap).out,
            ⟨zio.consume st.chunks
              (op.run st.opSt (zio.fillBuf st.chunks) cap).bytesRead,
             (op.run st.opSt (zio.fillBuf st.chunks) cap).st, hv != 0⟩)) := by
      simp only [zio.readStep]
      rw [if_neg (by simpa [List.isEmpty_iff] using hne)]
      rw [hhint]
      dsimp only
      rw [if_pos ?hcond]
      case hcond =>
        have : (op.run st.opSt (zio.fillBuf st.chunks) cap).out.length ≠ 0 :=
          by simpa [List.length_eq_zero] using hout
        simp [this]
    rw [zio.read]
    rw [hstep]
  · exact zio.fillBuf_consume st.chunks _ hlt
  · exact zio.consume_flatten st.chunks _ hne (le_of_lt hlt)

/-- Witness for C6: an operation consuming 1 of 3 buffered bytes leaves the
other two available for the next call. -/
theorem zio_reader_consumes_exactly_witness :
    zio.read oneByteRunOp 1 threeByteReader 4
      = some (.ok ([9], ⟨[[2, 3]], (), true⟩)) ∧
    zio.fillBuf (zio.consume threeByteReader.chunks 1) = [2, 3] ∧
    (zio.consume threeByteReader.chunks 1).flatten = [2, 3] :=
  zio_reader_consumes_exactly Unit oneByteRunOp threeByteReader 4 0 5
    (oneByteRunOp.run () [1, 2, 3] 4) rfl (by decide) rfl (by decide)
    (by decide)

/-- C7 counterexample: a Writer in the terminal finished state on which a
subsequent call still writes bytes to the underlying sink: `flush()` on a
finished Writer sends the operation's flush output to the sink. -/
theorem zio_finished_writer_flush_writes :
    finishedWriter.finished = true ∧
    (zio.writerFlush emitFlushOp listSink finishedWriter).1 = .ok () ∧
    (zio.writerFlush emitFlushOp listSink finishedWriter).2.sink
      = [3, 4] := by
  refine ⟨rfl, ?_, ?_⟩ <;>
    simp [zio.writerFlush, zio.writeFromOffset, emitFlushOp, listSink,
      finishedWriter]

/-- C7 (amended): a finished `zio/reader.rs` Reader returns 0 immediately
with its state unchanged (so the source is never touched), a fused
`bufread.rs` Decoder does the same, and `finish()` on a finished Writer
with a drained staging buffer returns Ok leaving the state (and hence the
sink) unchanged.  `Writer::write` and `Writer::flush`, however, are not
guarded by the finished flag and can still write to the sink (see the
counterexample). -/
theorem finished_adapters_no_io (σ ω : Type) (op : Op σ) (fuel cap : Nat)
    (rst : zreader.Reader σ) (hr : rst.finished = true)
    (bst : bufread.Decoder σ) (hb : bst.fused = true)
    (sink : Sink ω) (wst : zio.Writer σ ω) (hw : wst.finished = true)
    (hdr : wst.buffer.length ≤ wst.offset) :
    zreader.read op fuel rst cap = some (.ok ([], rst)) ∧
    bufread.read op fuel bst cap = some (.ok ([], bst)) ∧
    zio.writerFinish op sink (fuel + 1) wst = some (.ok (), wst) := by
  refine ⟨?_, ?_, ?_⟩
  · simp [zreader.read, hr]
  · simp [bufread.read, hb]
  · have hstep : zio.writerFinishStep op sink wst = .inl (.ok (), wst) := by
      simp only [zio.writerFinishStep]
      rw [zio.writeFromOffset_of_ge sink wst.sink wst.buffer wst.offset hdr]
      simp only
      rw [if_neg (by simp)]
      rw [if_pos hw]
    rw [zio.writerFinish]
    rw [hstep]

/-- Witness for the amended C7 at concrete finished/fused adapter states. -/
theorem finished_adapters_no_io_witness :
    zreader.read hintOneOp 2 zrFinishedReader 8
        = some (.ok ([], zrFinishedReader)) ∧
    bufread.read hintOneOp 2 fusedDecoder 8
        = some (.ok ([], fusedDecoder)) ∧
    zio.writerFinish hintOneOp listSink 3 finishedWriter
        = some (.ok (), finishedWriter) :=
  finished_adapters_no_io Unit (List Nat) hintOneOp 2 8 zrFinishedReader rfl
    fusedDecoder rfl listSink finishedWriter rfl (by decide)

/-- C3 counterexample: `flush()` returns Ok after calling the operation's
`flush` exactly once even though that single call reported 3 bytes still in
the operation's internal buffer: with staging capacity 2 and 5 internal
bytes, only 2 bytes reach the sink and no second flush call is made (the
operation state is still 3 after the call). -/
theorem zio_writer_flush_not_repeated :
    (zio.writerFlush countFlushOp listSink smallCapWriter).1 = .ok () ∧
    (countFlushOp.flush smallCapWriter.opSt smallCapWriter.cap).hint
      = .ok 3 ∧
    (zio.writerFlush countFlushOp listSink smallCapWriter).2.opSt = 3 ∧
    (zio.writerFlush countFlushOp listSink smallCapWriter).2.sink
      = [7, 7] := by
  refine ⟨?_, ?_, ?_, ?_⟩ <;>
    simp [zio.writerFlush, zio.writeFromOffset, countFlushOp, listSink,
      smallCapWriter]

/-- C3 (amended): `flush()` first drains any pending staged output to the
sink, then calls the Operation's `flush` exactly once — its remaining-bytes
hint is discarded (only the error component is consulted) and there is no
repeat-until-zero loop — then drains the staging buffer again; on success
the sink has received exactly the previously staged bytes followed by the
output of that single flush call, and the staging buffer is fully
drained. -/
theorem zio_writer_flush_single (σ ω : Type) (op : Op σ) (sink : Sink ω)
    (recv : ω → List Nat) (hs : Sink.Models sink recv)
    (st : zio.Writer σ ω)
    (hok : (zio.writerFlush op sink st).1 = .ok ()) :
    recv (zio.writerFlush op sink st).2.sink
      = recv st.sink ++ st.buffer.drop st.offset
          ++ (op.flush st.opSt st.cap).out ∧
    (zio.writerFlush op sink st).2.buffer
      = (op.flush st.opSt st.cap).out ∧
    (zio.writerFlush op sink st).2.opSt = (op.flush st.opSt st.cap).st ∧
    (zio.writerFlush op sink st).2.buffer.length
      ≤ (zio.writerFlush op sink st).2.offset := by
  simp only [zio.writerFlush] at hok ⊢
  by_cases hd : (zio.writeFromOffset sink st.sink st.buffer st.offset).ok
      = false
  · rw [if_pos hd] at hok
    simp at hok
  · rw [if_neg hd] at hok ⊢
    have hdok : (zio.writeFromOffset sink st.sink st.buffer st.offset).ok
        = true := by
      revert hd
      cases (zio.writeFromOffset sink st.sink st.buffer st.offset).ok <;>
        simp
    rcases hhint : (op.flush st.opSt st.cap).hint with e | hv
    · rw [hhint] at hok
      simp at hok
    · rw [hhint] at hok
      dsimp only at hok ⊢
      by_cases hd2 : (zio.writeFromOffset sink
          (zio.writeFromOffset sink st.sink st.buffer st.offset).sink
          (op.flush st.opSt st.cap).out 0).ok = false
      · rw [if_pos hd2] at hok
        simp at hok
      · rw [if_neg hd2] at hok ⊢
        have hd2ok : (zio.writeFromOffset sink
            (zio.writeFromOffset sink st.sink st.buffer st.offset).sink
            (op.flush st.opSt st.cap).out 0).ok = true := by
          revert hd2
          cases (zio.writeFromOffset sink
            (zio.writeFromOffset sink st.sink st.buffer st.offset).sink
            (op.flush st.opSt st.cap).out 0).ok <;> simp
        dsimp only
        refine ⟨?_, rfl, rfl, ?_⟩
        · rw [zio.writeFromOffset_recv sink recv hs _ _ 0 hd2ok]
          rw [zio.writeFromOffset_recv sink recv hs _ _ _ hdok]
          simp
        · exact zio.writeFromOffset_ok_ge sink _
            (op.flush st.opSt st.cap).out 0 hd2ok

/-- Witness for the amended C3 on a concrete writer, operation and sink. -/
theorem zio_writer_flush_single_witness :
    id (zio.writerFlush countFlushOp listSink smallCapWriter).2.sink
      = id smallCapWriter.sink
          ++ smallCapWriter.buffer.drop smallCapWriter.offset
          ++ (countFlushOp.flush smallCapWriter.opSt smallCapWriter.cap).out
      ∧ (zio.writerFlush countFlushOp listSink smallCapWriter).2.buffer
          = (countFlushOp.flush smallCapWriter.opSt smallCapWriter.cap).out
      ∧ (zio.writerFlush countFlushOp listSink smallCapWriter).2.opSt
          = (countFlushOp.flush smallCapWriter.opSt smallCapWriter.cap).st
      ∧ (zio.writerFlush countFlushOp listSink
          smallCapWriter).2.buffer.length
          ≤ (zio.writerFlush countFlushOp listSink smallCapWriter).2.offset
    :=
  zio_writer_flush_single Nat (List Nat) countFlushOp listSink id
    listSink_models smallCapWriter
    (by simp [zio.writerFlush, zio.writeFromOffset, countFlushOp, listSink,
      smallCapWriter])

theorem zio.writerWriteStep_inv (op : Op σ) (sink : Sink ω)
    (hop : Op.WF op) (hsk : Sink.WF sink) (st : zio.Writer σ ω)
    (hinv : zio.WInv st) (buf : List Nat) :
    (∀ e st', zio.writerWriteStep op sink st buf = .inl (e, st')
       → zio.WInv st') ∧
    (∀ st', zio.writerWriteStep op sink st buf = .inr st'
       → zio.WInv st') := by
  have hdo := zio.writeFromOffset_offset_le sink hsk st.sink st.buffer
    st.offset hinv.1
  constructor
  · intro e st' h
    simp only [zio.writerWriteStep] at h
    by_cases hd : (zio.writeFromOffset sink st.sink st.buffer st.offset).ok
        = false
    · rw [if_pos hd] at h
      simp only [Sum.inl.injEq, Prod.mk.injEq] at h
      obtain ⟨-, h2⟩ := h
      subst h2
      exact ⟨hdo, hinv.2⟩
    · rw [if_neg hd] at h
      rcases hh : (op.run st.opSt buf st.cap).hint with he | hv
      · rw [hh] at h
        simp only [Sum.inl.injEq, Prod.mk.injEq] at h
        obtain ⟨-, h2⟩ := h
        subst h2
        exact ⟨Nat.zero_le _, hop.run_out_le st.opSt buf st.cap⟩
      · rw [hh] at h
        dsimp only at h
        by_cases hr : ((op.run st.opSt buf st.cap).bytesRead != 0
            || buf.isEmpty) = true
        · rw [if_pos hr] at h
          simp only [Sum.inl.injEq, Prod.mk.injEq] at h
          obtain ⟨-, h2⟩ := h
          subst h2
          exact ⟨Nat.zero_le _, hop.run_out_le st.opSt buf st.cap⟩
        · rw [if_neg hr] at h
          simp at h
  · intro st' h
    simp only [zio.writerWriteStep] at h
    by_cases hd : (zio.writeFromOffset sink st.sink st.buffer st.offset).ok
        = false
    · rw [if_pos hd] at h
      simp at h
    · rw [if_neg hd] at h
      rcases hh : (op.run st.opSt buf st.cap).hint with he | hv
      · rw [hh] at h
        simp at h
      · rw [hh] at h
        dsimp only at h
        by_cases hr : ((op.run st.opSt buf st.cap).bytesRead != 0
            || buf.isEmpty) = true
        · rw [if_pos hr] at h
          simp at h
        · rw [if_neg hr] at h
          simp only [Sum.inr.injEq] at h
          subst h
          exact ⟨Nat.zero_le _, hop.run_out_le st.opSt buf st.cap⟩

theorem zio.writerFinishStep_inv (op : Op σ) (sink : Sink ω)
    (hop : Op.WF op) (hsk : Sink.WF sink) (st : zio.Writer σ ω)
    (hinv : zio.WInv st) :
    (∀ e st', zio.writerFinishStep op sink st = .inl (e, st')
       → zio.WInv st') ∧
    (∀ st', zio.writerFinishStep op sink st = .inr st' → zio.WInv st') := by
  have hdo := zio.writeFromOffset_offset_le sink hsk st.sink st.buffer
    st.offset hinv.1
  have hdo2 := fun w =>
    zio.writeFromOffset_offset_le sink hsk w
      (op.finish st.opSt st.cap).out 0 (Nat.zero_le _)
  constructor
  · intro e st' h
    simp only [zio.writerFinishStep] at h
    by_cases hd : (zio.writeFromOffset sink st.sink st.buffer st.offset).ok
        = false
    · rw [if_pos hd] at h
      simp only [Sum.inl.injEq, Prod.mk.injEq] at h
      obtain ⟨-, h2⟩ := h
      subst h2
      exact ⟨hdo, hinv.2⟩
    · rw [if_neg hd] at h
      by_cases hf : st.finished = true
      · rw [if_pos hf] at h
        simp only [Sum.inl.injEq, Prod.mk.injEq] at h
        obtain ⟨-, h2⟩ := h
        subst h2
        exact ⟨hdo, hinv.2⟩
      · rw [if_neg hf] at h
        rcases hh : (op.finish st.opSt st.cap).hint with he | hv
        · rw [hh] at h
          simp only [Sum.inl.injEq, Prod.mk.injEq] at h
          obtain ⟨-, h2⟩ := h
          subst h2
          exact ⟨Nat.zero_le _, hop.finish_out_le st.opSt st.cap⟩
        · rw [hh] at h
          dsimp only at h
          by_cases hd2 : (zio.writeFromOffset sink
              (zio.writeFromOffset sink st.sink st.buffer st.offset).sink
              (op.finish st.opSt st.cap).out 0).ok = false
          · rw [if_pos hd2] at h
            simp only [Sum.inl.injEq, Prod.mk.injEq] at h
            obtain ⟨-, h2⟩ := h
            subst h2
            exact ⟨hdo2 _, hop.finish_out_le st.opSt st.cap⟩
          · rw [if_neg hd2] at h
            simp at h
  · intro st' h
    simp only [zio.writerFinishStep] at h
    by_cases hd : (zio.writeFromOffset sink st.sink st.buffer st.offset).ok
        = false
    · rw [if_pos hd] at h
      simp at h
    · rw [if_neg hd] at h
      by_cases hf : st.finished = true
      · rw [if_pos hf] at h
        simp at h
      · rw [if_neg hf] at h
        rcases hh : (op.finish st.opSt st.cap).hint with he | hv
        · rw [hh] at h
          simp at h
        · rw [hh] at h
          dsimp only at h
          by_cases hd2 : (zio.writeFromOffset sink
              (zio.writeFromOffset sink st.sink st.buffer st.offset).sink
              (op.finish st.opSt st.cap).out 0).ok = false
          · rw [if_pos hd2] at h
            simp at h
          · rw [if_neg hd2] at h
            simp only [Sum.inr.injEq] at h
            subst h
            exact ⟨hdo2 _, hop.finish_out_le st.opSt st.cap⟩

theorem zio.writerWrite_inv (op : Op σ) (sink : Sink ω)
    (hop : Op.WF op) (hsk : Sink.WF sink) :
    ∀ (fuel : Nat) (st : zio.Writer σ ω) (buf : List Nat) e st',
      zio.WInv st →
      zio.writerWrite op sink fuel st buf = some (e, st') →
      zio.WInv st' := by
  intro fuel
  induction fuel with
  | zero =>
    intro st buf e st' _ h
    simp [zio.writerWrite] at h
  | succ n ih =>
    intro st buf e st' hinv h
    rw [zio.writerWrite] at h
    rcases hs : zio.writerWriteStep op sink st buf with r | stc
    · rw [hs] at h
      simp only [Option.some.injEq] at h
      subst h
      exact (zio.writerWriteStep_inv op sink hop hsk st hinv buf).1 e st' hs
    · rw [hs] at h
      exact ih stc buf e st'
        ((zio.writerWriteStep_inv op sink hop hsk st hinv buf).2 stc hs) h

theorem zio.writerFinish_inv (op : Op σ) (sink : Sink ω)
    (hop : Op.WF op) (hsk : Sink.WF sink) :
    ∀ (fuel : Nat) (st : zio.Writer σ ω) e st',
      zio.WInv st →
      zio.writerFinish op sink fuel st = some (e, st') →
      zio.WInv st' := by
  intro fuel
  induction fuel with
  | zero =>
    intro st e st' _ h
    simp [zio.writerFinish] at h
  | succ n ih =>
    intro st e st' hinv h
    rw [zio.writerFinish] at h
    rcases hs : zio.writerFinishStep op sink st with r | stc
    · rw [hs] at h
      simp only [Option.some.injEq] at h
      subst h
      exact (zio.writerFinishStep_inv op sink hop hsk st hinv).1 e st' hs
    · rw [hs] at h
      exact ih stc e st'
        ((zio.writerFinishStep_inv op sink hop hsk st hinv).2 stc hs) h

theorem zio.writerFlush_inv (op : Op σ) (sink : Sink ω)
    (hop : Op.WF op) (hsk : Sink.WF sink) (st : zio.Writer σ ω)
    (hinv : zio.WInv st) :
    zio.WInv (zio.writerFlush op sink st).2 := by
  have hdo := zio.writeFromOffset_offset_le sink hsk st.sink st.buffer
    st.offset hinv.1
  have hdo2 := fun w =>
    zio.writeFromOffset_offset_le sink hsk w
      (op.flush st.opSt st.cap).out 0 (Nat.zero_le _)
  simp only [zio.writerFlush]
  by_cases hd : (zio.writeFromOffset sink st.sink st.buffer st.offset).ok
      = false
  · rw [if_pos hd]
    exact ⟨hdo, hinv.2⟩
  · rw [if_neg hd]
    rcases hh : (op.flush st.opSt st.cap).hint with he | hv
    · exact ⟨Nat.zero_le _, hop.flush_out_le st.opSt st.cap⟩
    · dsimp only
      by_cases hd2 : (zio.writeFromOffset sink
          (zio.writeFromOffset sink st.sink st.buffer st.offset).sink
          (op.flush st.opSt st.cap).out 0).ok = false
      · rw [if_pos hd2]
        exact ⟨hdo2 _, hop.flush_out_le st.opSt st.cap⟩
      · rw [if_neg hd2]
        exact ⟨hdo2 _, hop.flush_out_le st.opSt st.cap⟩

/-- C10: assuming the codec buffer contract and the sink accept contract,
every public Writer operation (`write`, `flush`, `finish`) preserves the
staging-buffer invariant `offset ≤ buffer length ≤ capacity`, in every
outcome (success or error), so the slice `buffer[offset..]` taken by the
drain loop is always in bounds. -/
theorem zio_writer_invariant_preserved (σ ω : Type) (op : Op σ)
    (sink : Sink ω) (hop : Op.WF op) (hsk : Sink.WF sink)
    (st : zio.Writer σ ω) (hinv : zio.WInv st) :
    (∀ fuel buf e st', zio.writerWrite op sink fuel st buf = some (e, st')
       → zio.WInv st') ∧
    zio.WInv (zio.writerFlush op sink st).2 ∧
    (∀ fuel e st', zio.writerFinish op sink fuel st = some (e, st')
       → zio.WInv st') := by
  refine ⟨?_, ?_, ?_⟩
  · intro fuel buf e st' h
    exact zio.writerWrite_inv op sink hop hsk fuel st buf e st' hinv h
  · exact zio.writerFlush_inv op sink hop hsk st hinv
  · intro fuel e st' h
    exact zio.writerFinish_inv op sink hop hsk fuel st e st' hinv h

theorem consumeAllOp_wf : Op.WF consumeAllOp := by
  constructor <;> intros <;> simp [consumeAllOp]

theorem consumeAllOp_progress : Op.Progress consumeAllOp := by
  intro s src cap hsrc hcap
  left
  simp [consumeAllOp, List.length_eq_zero, hsrc]

theorem listSink_wf : Sink.WF listSink := by
  intro w bs
  simp [listSink]

/-- Witness for C10: the invariant holds after flushing a fresh writer with
a concrete operation and sink. -/
theorem zio_writer_invariant_preserved_witness :
    zio.WInv (zio.writerFlush consumeAllOp listSink freshWriter).2 :=
  (zio_writer_invariant_preserved Unit (List Nat) consumeAllOp listSink
    consumeAllOp_wf listSink_wf freshWriter ⟨Nat.zero_le _, by decide⟩).2.1

theorem zio.fillBuf_length_le (chunks : List (List Nat)) :
    (zio.fillBuf chunks).length ≤ chunks.flatten.length := by
  cases chunks with
  | nil => simp [zio.fillBuf]
  | cons c rest => simp [zio.fillBuf]

theorem zio.readStep_eof (op : Op σ) (st : zio.Reader σ) (cap : Nat)
    (he : zio.fillBuf st.chunks = []) :
    ∃ r, zio.readStep op st cap = .inl r := by
  simp only [zio.readStep, he, List.isEmpty_nil, if_true]
  by_cases hn : st.needsData = true
  · rw [if_pos hn]
    exact ⟨_, rfl⟩
  · rw [if_neg hn]
    cases hh : (op.finish st.opSt cap).hint with
    | error e => exact ⟨_, rfl⟩
    | ok hv => exact ⟨_, rfl⟩

theorem zio.readStep_progress (op : Op σ) (hop : Op.WF op)
    (hpr : Op.Progress op) (st : zio.Reader σ) (cap : Nat) :
    (∃ r, zio.readStep op st cap = .inl r) ∨
    (∃ st', zio.readStep op st cap = .inr st' ∧
      st'.chunks.flatten.length < st.chunks.flatten.length) := by
  by_cases he : zio.fillBuf st.chunks = []
  · exact .inl (zio.readStep_eof op st cap he)
  · simp only [zio.readStep]
    rw [if_neg (by simpa [List.isEmpty_iff] using he)]
    cases hh : (op.run st.opSt (zio.fillBuf st.chunks) cap).hint with
    | error e =>
      left
      exact ⟨_, rfl⟩
    | ok hv =>
      dsimp only
      by_cases hex : ((op.run st.opSt (zio.fillBuf st.chunks) cap).out.length
          != 0 || cap == 0) = true
      · rw [if_pos hex]
        left
        exact ⟨_, rfl⟩
      · rw [if_neg hex]
        right
        refine ⟨_, rfl, ?_⟩
        simp only [Bool.or_eq_true, not_or] at hex
        obtain ⟨h1, h2⟩ := hex
        have hout : (op.run st.opSt (zio.fillBuf st.chunks) cap).out = [] :=
          by
          have : (op.run st.opSt (zio.fillBuf st.chunks) cap).out.length = 0
            := by simpa using h1
          simpa [List.length_eq_zero] using this
        have hcap : cap ≠ 0 := by
          intro hc
          subst hc
          simp at h2
        have hbr : (op.run st.opSt (zio.fillBuf st.chunks) cap).bytesRead
            ≠ 0 := by
          rcases hpr st.opSt (zio.fillBuf st.chunks) cap he hcap with h3 | h3
          · exact h3
          · exact absurd hout h3
        have hle := hop.run_read_le st.opSt (zio.fillBuf st.chunks) cap
        have hflat := zio.consume_flatten st.chunks
          ((op.run st.opSt (zio.fillBuf st.chunks) cap).bytesRead) he hle
        have hfl := zio.fillBuf_length_le st.chunks
        dsimp only
        rw [hflat]
        rw [List.length_drop]
        omega

theorem zio.read_terminates_aux (op : Op σ) (hop : Op.WF op)
    (hpr : Op.Progress op) :
    ∀ (n : Nat) (st : zio.Reader σ) (cap : Nat),
      st.chunks.flatten.length ≤ n →
      zio.read op (n + 1) st cap ≠ none := by
  intro n
  induction n with
  | zero =>
    intro st cap hlen
    rw [zio.read]
    rcases zio.readStep_progress op hop hpr st cap with ⟨r, hr⟩ |
      ⟨st', h1, h2⟩
    · rw [hr]
      simp
    · omega
  | succ m ih =>
    intro st cap hlen
    rw [zio.read]
    rcases zio.readStep_progress op hop hpr st cap with ⟨r, hr⟩ |
      ⟨st', h1, h2⟩
    · rw [hr]
      simp
    · rw [h1]
      exact ih st' cap (by omega)

theorem zio.readStep_capzero (op : Op σ) (st : zio.Reader σ) :
    ∃ r, zio.readStep op st 0 = .inl r := by
  by_cases he : zio.fillBuf st.chunks = []
  · exact zio.readStep_eof op st 0 he
  · simp only [zio.readStep]
    rw [if_neg (by simpa [List.isEmpty_iff] using he)]
    cases hh : (op.run st.opSt (zio.fillBuf st.chunks) 0).hint with
    | error e => exact ⟨_, rfl⟩
    | ok hv =>
      dsimp only
      rw [if_pos (by simp)]
      exact ⟨_, rfl⟩

/-- C8: under the codec buffer and progress contracts, the `zio.rs` read
loop always terminates — within (flattened source length + 1) iterations —
and it exits exactly under the claimed conditions: at true EOF the step
always returns; with a zero-capacity destination buffer the very first
iteration returns (a degenerate no-op); and a non-EOF step continues to
another iteration precisely when it wrote zero bytes and the capacity is
nonzero. -/
theorem zio_read_loop_terminates (σ : Type) (op : Op σ) (hop : Op.WF op)
    (hpr : Op.Progress op) :
    (∀ (st : zio.Reader σ) (cap : Nat),
       zio.read op (st.chunks.flatten.length + 1) st cap ≠ none) ∧
    (∀ st : zio.Reader σ, zio.read op 1 st 0 ≠ none) ∧
    (∀ (st : zio.Reader σ) (cap : Nat), zio.fillBuf st.chunks = [] →
       ∃ r, zio.readStep op st cap = .inl r) ∧
    (∀ (st : zio.Reader σ) (cap hv : Nat) (r : OpOut σ),
       r = op.run st.opSt (zio.fillBuf st.chunks) cap →
       zio.fillBuf st.chunks ≠ [] → r.hint = .ok hv →
       (zio.readStep op st cap
           = .inr ⟨zio.consume st.chunks r.bytesRead, r.st, hv != 0⟩
         ↔ (r.out = [] ∧ cap ≠ 0))) := by
  refine ⟨?_, ?_, ?_, ?_⟩
  · intro st cap
    exact zio.read_terminates_aux op hop hpr st.chunks.flatten.length st cap
      le_rfl
  · intro st
    obtain ⟨r, hr⟩ := zio.readStep_capzero op st
    rw [zio.read]
    rw [hr]
    simp
  · intro st cap he
    exact zio.readStep_eof op st cap he
  · intro st cap hv r hr hne hh
    subst hr
    constructor
    · intro hstep
      simp only [zio.readStep] at hstep
      rw [if_neg (by simpa [List.isEmpty_iff] using hne)] at hstep
      rw [hh] at hstep
      dsimp only at hstep
      by_cases hex : ((op.run st.opSt (zio.fillBuf st.chunks)
          cap).out.length != 0 || cap == 0) = true
      · rw [if_pos hex] at hstep
        simp at hstep
      · simp only [Bool.or_eq_true, not_or] at hex
        obtain ⟨h1, h2⟩ := hex
        refine ⟨?_, ?_⟩
        · have : (op.run st.opSt (zio.fillBuf st.chunks) cap).out.length = 0
            := by simpa using h1
          simpa [List.length_eq_zero] using this
        · intro hc
          subst hc
          simp at h2
    · rintro ⟨hout, hcap⟩
      simp only [zio.readStep]
      rw [if_neg (by simpa [List.isEmpty_iff] using hne)]
      rw [hh]
      dsimp only
      rw [if_neg (by simp [hout, hcap])]

/-- Witness for C8: the loop terminates on a one-byte source with the
required fuel bound. -/
theorem zio_read_loop_terminates_witness :
    zio.read consumeAllOp 2 (⟨[[1]], (), true⟩ : zio.Reader Unit) 3 ≠ none :=
  (zio_read_loop_terminates Unit consumeAllOp consumeAllOp_wf
    consumeAllOp_progress).1 ⟨[[1]], (), true⟩ 3
